import Mathlib

set_option autoImplicit false

/-!
Shallow embedding of the core of the yomu newsletter system:

* the freshness filter and recency cache of
  `src/yomu/content/processor.py` (`ContentProcessor`),
* the cron-based dispatcher of `src/yomu/daemon/daemon.py`
  (`NewsletterDaemon`), and
* the per-source collection of `src/yomu/newsletter/service.py`
  (`NewsletterService._collect_articles_from_sources`).

Python `datetime` values are modelled as a wall-clock reading (an
integer number of minutes) together with an optional UTC offset
(`tzinfo`).  `collections.deque(maxlen=...)` is modelled from its
documented CPython semantics: append on the right, discard from the
left once the length exceeds `maxlen`, and `maxlen` must be
non-negative or the constructor raises.  Fallible Python calls are
modelled with `Except`/`Option`.
-/

namespace Yomu

/-- Model of a Python `datetime`: a wall-clock reading in minutes plus
the `tzinfo` component, modelled as an optional UTC offset in minutes
(`none` for a timezone-naive value). -/
structure PyDateTime where
  wall : Int
  tz : Option Int
deriving DecidableEq, Repr

/-- Embedding of `utils.normalize_datetime_to_utc_naive`: a
timezone-aware datetime is converted to UTC and stripped of its zone
info (`dt.astimezone(timezone.utc).replace(tzinfo=None)`), a naive
datetime is returned unchanged (assumed already UTC). -/
def normalizeDatetimeToUtcNaive (dt : PyDateTime) : PyDateTime :=
  match dt.tz with
  | some off => ⟨dt.wall - off, none⟩
  | none => dt

/-- Embedding of `dt.replace(tzinfo=None)`: drop the zone info, keep
the wall-clock reading. -/
def dtReplaceTzNone (dt : PyDateTime) : PyDateTime :=
  ⟨dt.wall, none⟩

/-- Python `>` on two timezone-naive datetimes compares wall-clock
readings.  Both use sites in the processor compare naive values. -/
def dtGtNaive (a b : PyDateTime) : Bool :=
  decide (b.wall < a.wall)

/-- An extracted article as built by
`ContentProcessor._content_feed_to_articles`: only the identifier
(`link`), the raw date field (`pubDate`) and the source label enter
the core's decisions; `title` and `description` are display-only and
omitted.  The flag `evalRaises` models a malformed item whose per-item
evaluation (`_should_include_article`, called inside the `try` at
processor.py:109-113) raises an exception before mutating any state. -/
structure Article where
  link : String
  pubDate : String
  source : String
  evalRaises : Bool
deriving DecidableEq, Repr

/-- Model of a CPython `collections.deque(maxlen=...)` holding
strings: the retained items (left to right) and the optional bound. -/
structure PyDeque where
  maxlen : Option Nat
  items : List String
deriving DecidableEq, Repr

/-- Constructing `deque(maxlen=m)`: CPython raises `ValueError` for a
negative `maxlen`; `maxlen=None` gives an unbounded deque and
`maxlen=0` is accepted (a deque that retains nothing). -/
def dequeNew (maxlen : Option Int) : Except String PyDeque :=
  match maxlen with
  | none => .ok ⟨none, []⟩
  | some m =>
    if m < 0 then .error "maxlen must be non-negative"
    else .ok ⟨some m.toNat, []⟩

/-- Membership test (`x in d`) on the deque. -/
def dequeContains (d : PyDeque) (x : String) : Bool :=
  decide (x ∈ d.items)

/-- The deque `append`: add on the right, and once the length exceeds
`maxlen` discard from the left, keeping the last `maxlen` items. -/
def dequeAppend (d : PyDeque) (x : String) : PyDeque :=
  match d.maxlen with
  | none => ⟨none, d.items ++ [x]⟩
  | some m =>
    let l := d.items ++ [x]
    ⟨some m, l.drop (l.length - m)⟩

/-- The record operation of the recency cache as the spec's cache
contract states it and as both call sites guard it: append the
identifier if absent (processor.py:115-116 and 140-141 both test
`article_url not in self.non_dated_processed_urls` before appending). -/
def dequeRecord (d : PyDeque) (id : String) : PyDeque :=
  if dequeContains d id then d else dequeAppend d id

/-- The exact insertion both call sites perform, truthiness guard
included: `if article_url and article_url not in deque: append`.  An
empty identifier is never inserted. -/
def recordUrl (d : PyDeque) (url : String) : PyDeque :=
  if url = "" then d else dequeRecord d url

/-- Folding the record operation over a sequence of identifiers. -/
def recordAll (d : PyDeque) (ids : List String) : PyDeque :=
  ids.foldl dequeRecord d

/-- Construction of `ContentProcessor.__init__` as far as the core
state is concerned: the recency cache
`self.non_dated_processed_urls = deque(maxlen=max_fallback_urls)`.
The remaining fields (extractor, logger, timeout) are external I/O
collaborators with no bearing on the claims. -/
def contentProcessorInit (maxFallbackUrls : Option Int) : Except String PyDeque :=
  dequeNew maxFallbackUrls

/-- Embedding of `ContentProcessor._should_include_article`
(processor.py:125-143), parametrized by the date-parsing oracle `pd`
standing for `utils.parse_date` (the claims quantify only over its
result, never over the string formats themselves; the source
guarantees `parse_date` of an absent/empty string is `None`).  Returns
the inclusion decision together with the updated recency cache (the
source mutates `self.non_dated_processed_urls` in place at
processor.py:140-141). -/
def shouldIncludeArticle (pd : String → Option PyDateTime)
    (lastRunUtc : Option PyDateTime) (cache : PyDeque) (a : Article) :
    Bool × PyDeque :=
  let articleDate := pd a.pubDate
  match lastRunUtc, articleDate with
  | some lr, some d =>
      (dtGtNaive (normalizeDatetimeToUtcNaive d) (dtReplaceTzNone lr), cache)
  | _, _ =>
      match articleDate with
      | none => (true, recordUrl cache a.link)
      | some _ => (true, cache)

/-- Result of one filtering pass: the retained articles in order, and
the recency cache after the pass. -/
structure FilterResult where
  included : List Article
  cache : PyDeque
deriving DecidableEq, Repr

/-- One iteration of the loop in
`ContentProcessor._filter_articles_by_timestamp`
(processor.py:103-117): drop a cache-hit identifier outright; an
exception thrown by the per-item evaluation is caught and the article
is included with its identifier recorded; otherwise the decision of
`_should_include_article` applies. -/
def filterStep (pd : String → Option PyDateTime)
    (lastRunUtc : Option PyDateTime) (st : FilterResult) (a : Article) :
    FilterResult :=
  if a.link ≠ "" ∧ dequeContains st.cache a.link then
    st
  else if a.evalRaises then
    { included := st.included ++ [a], cache := recordUrl st.cache a.link }
  else
    let r := shouldIncludeArticle pd lastRunUtc st.cache a
    { included := if r.1 then st.included ++ [a] else st.included
      cache := r.2 }

/-- Embedding of `ContentProcessor._filter_articles_by_timestamp`
(processor.py:85-123).  `cache` is the processor's
`non_dated_processed_urls` deque on entry; `lastRunUtc` is the result
of `parse_iso_timestamp(last_run_timestamp)` (which, when it succeeds,
always yields a timezone-aware value with UTC offset zero). -/
def filterArticlesByTimestamp (pd : String → Option PyDateTime)
    (cache : PyDeque) (articles : List Article)
    (lastRunUtc : Option PyDateTime) : FilterResult :=
  articles.foldl (filterStep pd lastRunUtc) ⟨[], cache⟩

/-! Cron scheduling.  The daemon delegates to the external `croniter`
library; it is modelled here from its documented semantics for the
cron fragment the spec exercises: five space-separated fields
(minute, hour, day-of-month, month, day-of-week), each either `*` or
a number in range, with day-of-week `0` and `7` both meaning Sunday.
Instants are minutes on a weekly grid whose minute `0` is a Sunday
00:00; the day-of-month and month fields are parsed and range-checked
but unconstrained in matching, since the grid carries no calendar
date and every schedule the spec names uses `*` there. -/

/-- One field of a cron expression: `*` or a single number. -/
inductive CronField where
  | star : CronField
  | num : Nat → CronField
deriving DecidableEq, Repr

/-- Split a character list on spaces (the tokenization of a cron
expression), written structurally so concrete instances reduce. -/
def splitSpaces : List Char → List Char → List String
  | [], acc => [String.mk acc.reverse]
  | c :: rest, acc =>
    if c = ' ' then String.mk acc.reverse :: splitSpaces rest []
    else splitSpaces rest (c :: acc)

/-- The numeric value of a decimal digit character. -/
def digitVal (c : Char) : Option Nat :=
  if '0' ≤ c ∧ c ≤ '9' then some (c.toNat - 48) else none

/-- Accumulating decimal parse: every character must be a digit. -/
def parseNatAux : List Char → Nat → Option Nat
  | [], acc => some acc
  | c :: rest, acc =>
    match digitVal c with
    | some d => parseNatAux rest (acc * 10 + d)
    | none => none

/-- Parse a non-empty all-digit numeral (the digit parsing croniter
applies to a plain numeric cron field). -/
def parseNatChars (cs : List Char) : Option Nat :=
  match cs with
  | [] => none
  | _ => parseNatAux cs 0

/-- Parse one cron field, accepting `*` or a number between `lo` and
`hi` inclusive. -/
def parseCronField (lo hi : Nat) (s : String) : Option CronField :=
  if s = "*" then some .star
  else
    match parseNatChars s.data with
    | some n => if lo ≤ n ∧ n ≤ hi then some (.num n) else none
    | none => none

/-- A parsed five-field cron expression. -/
structure CronExpr where
  minute : CronField
  hour : CronField
  dom : CronField
  month : CronField
  dow : CronField
deriving DecidableEq, Repr

/-- Day-of-week `7` is an alias for `0` (Sunday). -/
def normalizeDow : CronField → CronField
  | .num 7 => .num 0
  | f => f

/-- Parse a cron expression string: exactly five whitespace-separated
fields, each `*` or an in-range number; anything else is invalid. -/
def cronParse (s : String) : Option CronExpr :=
  match (splitSpaces s.data []).filter (fun t => t ≠ "") with
  | [mi, h, d, mo, w] => do
    let fmi ← parseCronField 0 59 mi
    let fh ← parseCronField 0 23 h
    let fd ← parseCronField 1 31 d
    let fmo ← parseCronField 1 12 mo
    let fw ← parseCronField 0 7 w
    some ⟨fmi, fh, fd, fmo, normalizeDow fw⟩
  | _ => none

/-- Does the minute instant `m` (minutes since a Sunday 00:00) match
the expression?  Minute, hour and day-of-week are checked. -/
def fieldMatches : CronField → Nat → Bool
  | .star, _ => true
  | .num n, v => decide (n = v)

/-- Matching an instant against a cron expression. -/
def cronMatches (e : CronExpr) (m : Nat) : Bool :=
  fieldMatches e.minute (m % 60)
    && fieldMatches e.hour (m / 60 % 24)
    && fieldMatches e.dow (m / 1440 % 7)

/-- Linear search for the first matching instant, fuelled. -/
def searchNext (e : CronExpr) : Nat → Nat → Option Nat
  | _, 0 => none
  | m, fuel + 1 => if cronMatches e m then some m else searchNext e (m + 1) fuel

/-- Minutes in a week: the matching pattern is periodic with this
period, so any satisfiable expression fires within one week. -/
def weekMinutes : Nat := 10080

/-- The next instant strictly after `now` at which the expression
fires (croniter's `get_next` semantics). -/
def cronNextAfter (e : CronExpr) (now : Nat) : Option Nat :=
  searchNext e (now + 1) weekMinutes

/-- Model of a `croniter` iterator object: the parsed expression and
the mutable current instant. -/
structure PyCroniter where
  expr : CronExpr
  current : Nat
deriving DecidableEq, Repr

/-- Constructing `croniter(expr, now)`: the expression is expanded
eagerly and an invalid one raises at construction. -/
def croniterNew (expr : String) (now : Nat) : Except String PyCroniter :=
  match cronParse expr with
  | some e => .ok ⟨e, now⟩
  | none => .error "invalid cron expression"

/-- The iterator's `set_current`. -/
def croniterSetCurrent (c : PyCroniter) (t : Nat) : PyCroniter :=
  { c with current := t }

/-- The iterator's `get_next(datetime)`: the next fire strictly after
the current instant, also advancing the iterator. -/
def croniterGetNext (c : PyCroniter) : Option (Nat × PyCroniter) :=
  (cronNextAfter c.expr c.current).map fun t => (t, { c with current := t })

/-- The daemon state the claims touch: its list of cron iterators. -/
structure NewsletterDaemon where
  crons : List PyCroniter
deriving DecidableEq, Repr

/-- The loop body of `NewsletterDaemon.__init__` (daemon.py:29-33):
build one iterator per configured frequency, failing fast on the
first invalid expression, so no partial daemon value exists on error. -/
def initCrons (frequencies : List String) (now : Nat) :
    Except String (List PyCroniter) :=
  match frequencies with
  | [] => .ok []
  | f :: fs => do
    let c ← croniterNew f now
    let cs ← initCrons fs now
    pure (c :: cs)

/-- Embedding of `NewsletterDaemon.__init__` for the scheduling state. -/
def newsletterDaemonInit (frequencies : List String) (now : Nat) :
    Except String NewsletterDaemon :=
  (initCrons frequencies now).map NewsletterDaemon.mk

/-- Python's `min` over a list: raises (`none`) on an empty list,
otherwise folds the binary minimum. -/
def pyMin : List Nat → Option Nat
  | [] => none
  | x :: xs => some (xs.foldl Nat.min x)

/-- The loop of `NewsletterDaemon._get_next_run_time`
(daemon.py:46-54): for each iterator, `set_current(now)` then
`get_next`, collecting the next fire times in order.  The advanced
iterator states are discarded here because every call re-seats the
current instant first (the state-independence proved below). -/
def daemonNextTimes : List PyCroniter → Nat → Option (List Nat)
  | [], _ => some []
  | c :: cs, now => do
    let r ← croniterGetNext (croniterSetCurrent c now)
    let ts ← daemonNextTimes cs now
    pure (r.1 :: ts)

/-- Embedding of `NewsletterDaemon._get_next_run_time`: the minimum of
the per-schedule next fire times computed from `now`. -/
def getNextRunTime (crons : List PyCroniter) (now : Nat) : Option Nat :=
  (daemonNextTimes crons now).bind pyMin

/-! The newsletter service's per-source collection
(`NewsletterService._collect_articles_from_sources`,
service.py:73-109).  `process` stands for
`ContentProcessor.process_source`, which may raise (per-source
extraction/validation failure) and otherwise returns the freshness
filter's output. -/

/-- One entry of the `articles_by_source` dict: the key (the source
label taken from the first limited article) and the stored value
(`url` and the limited article list). -/
structure SourceEntry where
  name : String
  url : String
  articles : List Article
deriving DecidableEq, Repr

/-- Python list slicing `l[:n]` for an arbitrary integer bound: a
non-negative bound keeps the first `n` items, a negative bound drops
the last `|n|` items. -/
def pySlice (n : Int) (l : List Article) : List Article :=
  if 0 ≤ n then l.take n.toNat else l.take (l.length - (-n).toNat)

/-- Insertion-ordered dict assignment `m[key] = v`: overwrite in place
when the key exists, else append. -/
def dictInsert (m : List SourceEntry) (e : SourceEntry) : List SourceEntry :=
  if m.any (fun x => x.name == e.name) then
    m.map (fun x => if x.name == e.name then e else x)
  else m ++ [e]

/-- The entry a single source would contribute: nothing when
processing raises or returns no articles; otherwise the limited list
`articles[:max_articles_per_source]` keyed by the first limited
article's source label.  When the limit empties a non-empty list, the
source's `articles[0]` lookup (service.py:95/100) raises `IndexError`,
which the per-source `except` catches, so the source contributes
nothing. -/
def entryFor (process : String → Except Unit (List Article)) (maxA : Int)
    (sourceUrl : String) : Option SourceEntry :=
  match process sourceUrl with
  | .error _ => none
  | .ok articles =>
    if articles.isEmpty then none
    else
      match (pySlice maxA articles).head? with
      | none => none
      | some a0 => some ⟨a0.source, sourceUrl, pySlice maxA articles⟩

/-- One iteration of the source loop: skip a failed or empty source,
otherwise assign into the dict. -/
def collectStep (process : String → Except Unit (List Article)) (maxA : Int)
    (m : List SourceEntry) (sourceUrl : String) : List SourceEntry :=
  match entryFor process maxA sourceUrl with
  | none => m
  | some e => dictInsert m e

/-- Embedding of `NewsletterService._collect_articles_from_sources`. -/
def collectArticlesFromSources (process : String → Except Unit (List Article))
    (maxA : Int) (sources : List String) : List SourceEntry :=
  sources.foldl (collectStep process maxA) []

/-! Helper lemmas about the filter on a single-article batch. -/

/-- A single-article batch runs `filterStep` once. -/
theorem filter_singleton (pd : String → Option PyDateTime) (c : PyDeque)
    (a : Article) (lr : Option PyDateTime) :
    filterArticlesByTimestamp pd c [a] lr = filterStep pd lr ⟨[], c⟩ a := rfl

/-- Concrete parse oracle for witnesses: only the string `"dated"`
parses, to a naive datetime at wall-clock minute 100. -/
def pdOracleW : String → Option PyDateTime := fun s =>
  if s = "dated" then some ⟨100, none⟩ else none

/-- Concrete parse oracle for witnesses: nothing parses. -/
def pdNoDateW : String → Option PyDateTime := fun _ => none

/-- Concrete dated article for witnesses. -/
def artDatedW : Article := ⟨"http://x/1", "dated", "S", false⟩

/-- Concrete undated article with a nonempty identifier. -/
def artU1W : Article := ⟨"u1", "", "S", false⟩

/-- Concrete undated article whose identifier is the empty string. -/
def artEmptyLinkW : Article := ⟨"", "", "S", false⟩

/-- Concrete known last-run marker (UTC-aware, offset zero, as
`parse_iso_timestamp` always produces). -/
def lastRunW : PyDateTime := ⟨50, some 0⟩

/-- Concrete cache for witnesses. -/
def cacheW : PyDeque := ⟨some 10, []⟩

/-- C1: for every article whose raw date field parses and a known
(non-`None`) `last_run`, the per-item decision of
`_should_include_article` includes the article iff its timestamp
normalized to UTC-naive is strictly greater than the normalized
`last_run`; at the filter level, when the identifier is not in the
recency cache, the article is kept exactly in that case and is dropped
when its normalized timestamp equals or precedes `last_run`. -/
theorem filter_dated_includes_iff_newer
    (pd : String → Option PyDateTime) (c : PyDeque) (a : Article)
    (lr d : PyDateTime) (hd : pd a.pubDate = some d)
    (hr : a.evalRaises = false) (htz : lr.tz = some 0) :
    ((shouldIncludeArticle pd (some lr) c a).1 = true ↔
      (normalizeDatetimeToUtcNaive lr).wall <
        (normalizeDatetimeToUtcNaive d).wall)
    ∧ (dequeContains c a.link = false →
        ((filterArticlesByTimestamp pd c [a] (some lr)).included = [a] ↔
          (normalizeDatetimeToUtcNaive lr).wall <
            (normalizeDatetimeToUtcNaive d).wall)
        ∧ (¬ (normalizeDatetimeToUtcNaive lr).wall <
              (normalizeDatetimeToUtcNaive d).wall →
            (filterArticlesByTimestamp pd c [a] (some lr)).included = [])) := by
  have hsi : shouldIncludeArticle pd (some lr) c a
      = (dtGtNaive (normalizeDatetimeToUtcNaive d) (dtReplaceTzNone lr), c) := by
    simp [shouldIncludeArticle, hd]
  have hwall : (normalizeDatetimeToUtcNaive lr).wall = lr.wall := by
    simp [normalizeDatetimeToUtcNaive, htz]
  have hdec : (shouldIncludeArticle pd (some lr) c a).1 = true ↔
      (normalizeDatetimeToUtcNaive lr).wall <
        (normalizeDatetimeToUtcNaive d).wall := by
    rw [hsi, hwall]
    simp [dtGtNaive, dtReplaceTzNone]
  refine ⟨hdec, fun hc => ?_⟩
  have hstep : filterArticlesByTimestamp pd c [a] (some lr)
      = { included := if (shouldIncludeArticle pd (some lr) c a).1
            then [a] else []
          cache := (shouldIncludeArticle pd (some lr) c a).2 } := by
    rw [filter_singleton]
    simp [filterStep, hr, hc]
  constructor
  · rw [hstep]
    constructor
    · intro hincl
      by_cases hb : (shouldIncludeArticle pd (some lr) c a).1 = true
      · exact hdec.mp hb
      · simp [hb] at hincl
    · intro hlt
      simp [hdec.mpr hlt]
  · intro hnlt
    rw [hstep]
    have hb : (shouldIncludeArticle pd (some lr) c a).1 = false := by
      by_contra hne
      exact hnlt (hdec.mp (by simpa using hne))
    simp [hb]

/-- C1 witness: a dated article at wall minute 100 against a last run
at wall minute 50 is included by the decision and by the filter. -/
theorem filter_dated_includes_iff_newer_witness :
    (shouldIncludeArticle pdOracleW (some lastRunW) cacheW artDatedW).1 = true
    ∧ (filterArticlesByTimestamp pdOracleW cacheW [artDatedW]
        (some lastRunW)).included = [artDatedW] :=
  ⟨(filter_dated_includes_iff_newer pdOracleW cacheW artDatedW lastRunW
      ⟨100, none⟩ rfl rfl rfl).1.mpr (by decide),
   (((filter_dated_includes_iff_newer pdOracleW cacheW artDatedW lastRunW
      ⟨100, none⟩ rfl rfl rfl).2 rfl).1).mpr (by decide)⟩

/-- C2 counterexample: an undated article whose identifier is the
empty string is included on first encounter, but its identifier is not
inserted into the recency cache, contrary to the claim's universal
"includes it and inserts its identifier". -/
theorem undated_emptyLink_not_cached_cex :
    (filterArticlesByTimestamp pdNoDateW ⟨some 2, []⟩ [artEmptyLinkW]
        none).included = [artEmptyLinkW]
    ∧ (filterArticlesByTimestamp pdNoDateW ⟨some 2, []⟩ [artEmptyLinkW]
        none).cache = ⟨some 2, []⟩ :=
  ⟨rfl, rfl⟩

/-- C2 (amended to articles with a nonempty identifier): an undated
article not yet in the recency cache is included and its identifier is
appended to the cache; while its identifier is still in the cache it
is dropped and nothing is re-inserted. -/
theorem undated_first_cached_then_dropped
    (pd : String → Option PyDateTime) (c : PyDeque) (a : Article)
    (lr : Option PyDateTime) (hd : pd a.pubDate = none)
    (hr : a.evalRaises = false) (hl : a.link ≠ "") :
    (dequeContains c a.link = false →
      (filterArticlesByTimestamp pd c [a] lr).included = [a]
      ∧ (filterArticlesByTimestamp pd c [a] lr).cache = dequeAppend c a.link)
    ∧ (dequeContains c a.link = true →
      (filterArticlesByTimestamp pd c [a] lr).included = []
      ∧ (filterArticlesByTimestamp pd c [a] lr).cache = c) := by
  constructor
  · intro hc
    have hrec : recordUrl c a.link = dequeAppend c a.link := by
      simp [recordUrl, dequeRecord, hl, hc]
    have hsi : shouldIncludeArticle pd lr c a = (true, dequeAppend c a.link) := by
      cases lr <;> simp [shouldIncludeArticle, hd, hrec]
    rw [filter_singleton]
    simp [filterStep, hr, hc, hsi]
  · intro hc
    rw [filter_singleton]
    simp [filterStep, hl, hc]

/-- C2 witness: a fresh undated identifier `u1` is included and
appended; on re-encounter with `u1` cached it is dropped and the cache
is unchanged. -/
theorem undated_first_cached_then_dropped_witness :
    ((filterArticlesByTimestamp pdNoDateW ⟨some 2, []⟩ [artU1W] none).included
        = [artU1W]
      ∧ (filterArticlesByTimestamp pdNoDateW ⟨some 2, []⟩ [artU1W] none).cache
        = dequeAppend ⟨some 2, []⟩ "u1")
    ∧ ((filterArticlesByTimestamp pdNoDateW ⟨some 2, ["u1"]⟩ [artU1W]
          none).included = []
      ∧ (filterArticlesByTimestamp pdNoDateW ⟨some 2, ["u1"]⟩ [artU1W]
          none).cache = ⟨some 2, ["u1"]⟩) :=
  ⟨(undated_first_cached_then_dropped pdNoDateW ⟨some 2, []⟩ artU1W none
      rfl rfl (by decide)).1 (by decide),
   (undated_first_cached_then_dropped pdNoDateW ⟨some 2, ["u1"]⟩ artU1W none
      rfl rfl (by decide)).2 (by decide)⟩

/-- C3: filtering an article whose raw date field parses leaves the
recency cache unchanged, whatever the last-run marker and whether the
article is included or excluded. -/
theorem dated_article_cache_unchanged
    (pd : String → Option PyDateTime) (c : PyDeque) (a : Article)
    (lr : Option PyDateTime) (d : PyDateTime)
    (hd : pd a.pubDate = some d) (hr : a.evalRaises = false) :
    (filterArticlesByTimestamp pd c [a] lr).cache = c := by
  rw [filter_singleton]
  by_cases hc : (a.link ≠ "" ∧ dequeContains c a.link)
  · simp [filterStep, hc]
  · cases lr <;> simp [filterStep, hc, hr, shouldIncludeArticle, hd]

/-- C3 witness: the dated witness article leaves the cache exactly as
it was, both under a known and an absent last run. -/
theorem dated_article_cache_unchanged_witness :
    (filterArticlesByTimestamp pdOracleW cacheW [artDatedW]
        (some lastRunW)).cache = cacheW
    ∧ (filterArticlesByTimestamp pdOracleW cacheW [artDatedW] none).cache
        = cacheW :=
  ⟨dated_article_cache_unchanged pdOracleW cacheW artDatedW (some lastRunW)
      ⟨100, none⟩ rfl rfl,
   dated_article_cache_unchanged pdOracleW cacheW artDatedW none
      ⟨100, none⟩ rfl rfl⟩

/-- C9: an article whose identifier is the empty string bypasses the
recency cache entirely: the cache is never mutated by it (whatever its
date, the last-run marker, or an evaluation error), it is never
dropped by the cache-membership test even when the empty string sits
in the cache, and when undated it is included on every encounter. -/
theorem empty_link_bypasses_cache
    (pd : String → Option PyDateTime) (c : PyDeque) (a : Article)
    (lr : Option PyDateTime) (hl : a.link = "") :
    (filterArticlesByTimestamp pd c [a] lr).cache = c
    ∧ (pd a.pubDate = none →
        (filterArticlesByTimestamp pd c [a] lr).included = [a]) := by
  rw [filter_singleton]
  cases hb : a.evalRaises
  · constructor
    · cases hpd : pd a.pubDate with
      | none =>
        cases lr <;>
          simp [filterStep, hl, hb, shouldIncludeArticle, hpd, recordUrl]
      | some d =>
        cases lr <;> simp [filterStep, hl, hb, shouldIncludeArticle, hpd]
    · intro hpd
      cases lr <;> simp [filterStep, hl, hb, shouldIncludeArticle, hpd]
  · constructor
    · simp [filterStep, hl, hb, recordUrl]
    · intro _
      simp [filterStep, hl, hb]

/-- C9 witness: the empty-identifier undated article is included and
the cache untouched even when the empty string is present in the
cache. -/
theorem empty_link_bypasses_cache_witness :
    (filterArticlesByTimestamp pdNoDateW ⟨some 2, [""]⟩ [artEmptyLinkW]
        none).cache = ⟨some 2, [""]⟩
    ∧ (filterArticlesByTimestamp pdNoDateW ⟨some 2, [""]⟩ [artEmptyLinkW]
        none).included = [artEmptyLinkW] :=
  ⟨(empty_link_bypasses_cache pdNoDateW ⟨some 2, [""]⟩ artEmptyLinkW none
      rfl).1,
   (empty_link_bypasses_cache pdNoDateW ⟨some 2, [""]⟩ artEmptyLinkW none
      rfl).2 rfl⟩

/-! Recency-cache invariants (C4, C8). -/

/-- The last `C` elements of a list. -/
def lastN (C : Nat) (l : List String) : List String :=
  l.drop (l.length - C)

theorem dequeAppend_some (C : Nat) (it : List String) (x : String) :
    dequeAppend ⟨some C, it⟩ x = ⟨some C, lastN C (it ++ [x])⟩ := rfl

theorem length_lastN_le (C : Nat) (l : List String) :
    (lastN C l).length ≤ C := by
  simp only [lastN, List.length_drop]
  omega

theorem lastN_of_length_le {C : Nat} {l : List String} (h : l.length ≤ C) :
    lastN C l = l := by
  simp [lastN, Nat.sub_eq_zero_of_le h]

theorem lastN_append (C : Nat) (l r : List String) :
    lastN C (lastN C l ++ r) = lastN C (l ++ r) := by
  by_cases h : l.length ≤ C
  · rw [lastN_of_length_le h]
  · have hC : C < l.length := Nat.lt_of_not_le h
    have hj : l.length - C ≤ l.length := Nat.sub_le _ _
    have hsplit : lastN C l ++ r = (l ++ r).drop (l.length - C) := by
      simp only [lastN]
      exact (List.drop_append_of_le_length hj).symm
    rw [hsplit]
    simp only [lastN, List.length_drop, List.length_append, List.drop_drop]
    congr 1
    omega

/-- Length bound for a single bounded append. -/
theorem dequeAppend_length_le (C : Nat) (d : PyDeque) (x : String)
    (hm : d.maxlen = some C) :
    (dequeAppend d x).maxlen = some C ∧ (dequeAppend d x).items.length ≤ C := by
  obtain ⟨ml, it⟩ := d
  cases hm
  exact ⟨rfl, length_lastN_le C (it ++ [x])⟩

/-- For every sequence of record operations, the bounded cache never
exceeds its capacity. -/
theorem recordAll_length_le (C : Nat) :
    ∀ (ids : List String) (d : PyDeque), d.maxlen = some C →
      d.items.length ≤ C →
      (recordAll d ids).maxlen = some C
      ∧ (recordAll d ids).items.length ≤ C := by
  intro ids
  induction ids with
  | nil => intro d hm hl; exact ⟨hm, hl⟩
  | cons x xs ih =>
    intro d hm hl
    show (recordAll (dequeRecord d x) xs).maxlen = some C
      ∧ (recordAll (dequeRecord d x) xs).items.length ≤ C
    by_cases hc : dequeContains d x
    · rw [dequeRecord, if_pos hc]
      exact ih d hm hl
    · rw [dequeRecord, if_neg hc]
      obtain ⟨h1, h2⟩ := dequeAppend_length_le C d x hm
      exact ih _ h1 h2

/-- Inserting distinct, not-yet-present identifiers into the bounded
cache keeps exactly the last `C` of the full insertion sequence, in
order. -/
theorem recordAll_items_eq (C : Nat) :
    ∀ (ids : List String) (d : PyDeque), d.maxlen = some C →
      d.items.length ≤ C →
      (∀ x ∈ d.items, x ∉ ids) → ids.Nodup →
      (recordAll d ids).items = lastN C (d.items ++ ids) := by
  intro ids
  induction ids with
  | nil =>
    intro d hm hl _ _
    simp [recordAll, lastN_of_length_le hl]
  | cons x xs ih =>
    intro d hm hl hdisj hnd
    have hx : x ∉ d.items := fun hmem => hdisj x hmem (List.mem_cons_self x xs)
    have hc : ¬ dequeContains d x = true := by
      simp [dequeContains, hx]
    show (recordAll (dequeRecord d x) xs).items = lastN C (d.items ++ x :: xs)
    rw [dequeRecord, if_neg hc]
    obtain ⟨ml, it⟩ := d
    cases hm
    rw [dequeAppend_some]
    have hsub : ∀ y ∈ lastN C (it ++ [x]), y ∉ xs := by
      intro y hy
      have hy2 : y ∈ it ++ [x] := List.drop_subset _ _ hy
      rcases List.mem_append.mp hy2 with h | h
      · intro hmem
        exact hdisj y h (List.mem_cons_of_mem x hmem)
      · have : y = x := by simpa using h
        subst this
        exact (List.nodup_cons.mp hnd).1
    have := ih ⟨some C, lastN C (it ++ [x])⟩ rfl
      (length_lastN_le C (it ++ [x])) hsub (List.nodup_cons.mp hnd).2
    rw [this]
    show lastN C (lastN C (it ++ [x]) ++ xs) = lastN C (it ++ x :: xs)
    rw [lastN_append]
    simp

/-- C4: starting from an empty cache of capacity `C`, the size never
exceeds `C` under any sequence of record operations, and recording
`C + 1` distinct identifiers evicts exactly the first-inserted one,
keeping the remaining `C` in insertion order (FIFO) with the evicted
identifier no longer a member (so it is eligible for re-inclusion). -/
theorem recency_cache_bounded_fifo (C : Nat) (ids : List String) :
    (recordAll ⟨some C, []⟩ ids).items.length ≤ C
    ∧ (ids.Nodup → ids.length = C + 1 →
        (recordAll ⟨some C, []⟩ ids).items = ids.drop 1
        ∧ ∀ h, ids.head? = some h →
            dequeContains (recordAll ⟨some C, []⟩ ids) h = false) := by
  refine ⟨(recordAll_length_le C ids ⟨some C, []⟩ rfl (by simp)).2,
    fun hnd hlen => ?_⟩
  have hitems : (recordAll ⟨some C, []⟩ ids).items = lastN C ids := by
    have := recordAll_items_eq C ids ⟨some C, []⟩ rfl (by simp)
      (by simp) hnd
    simpa using this
  have hdrop : lastN C ids = ids.drop 1 := by
    simp [lastN, hlen]
  refine ⟨by rw [hitems, hdrop], fun h hh => ?_⟩
  cases ids with
  | nil => simp at hh
  | cons a t =>
    have ha : h = a := by simpa using hh.symm
    subst ha
    have hnotmem : h ∉ t := (List.nodup_cons.mp hnd).1
    have : (recordAll ⟨some C, []⟩ (h :: t)).items = t := by
      rw [hitems, hdrop]; simp
    simp [dequeContains, this, hnotmem]

/-- C4 witness: capacity 2 with three distinct identifiers: the size
bound holds, the cache holds the last two in order, and the evicted
first identifier is no longer a member. -/
theorem recency_cache_bounded_fifo_witness :
    (recordAll ⟨some 2, []⟩ ["a", "b", "c"]).items.length ≤ 2
    ∧ (recordAll ⟨some 2, []⟩ ["a", "b", "c"]).items = ["a", "b", "c"].drop 1
    ∧ dequeContains (recordAll ⟨some 2, []⟩ ["a", "b", "c"]) "a" = false :=
  ⟨(recency_cache_bounded_fifo 2 ["a", "b", "c"]).1,
   ((recency_cache_bounded_fifo 2 ["a", "b", "c"]).2 (by decide) rfl).1,
   ((recency_cache_bounded_fifo 2 ["a", "b", "c"]).2 (by decide) rfl).2
     "a" rfl⟩

/-- C8 counterexample: constructing the processor with capacity `0`
does not raise — the claim's "for every non-positive capacity value"
fails at zero; CPython accepts `deque(maxlen=0)`. -/
theorem capacity_zero_init_ok_cex :
    contentProcessorInit (some 0) = .ok ⟨some 0, []⟩ := rfl

/-- C8 (amended to negative capacities): a negative capacity raises at
construction time, while a non-negative capacity is accepted. -/
theorem capacity_validated_at_construction (m : Int) :
    (m < 0 → contentProcessorInit (some m)
      = .error "maxlen must be non-negative")
    ∧ (0 ≤ m → contentProcessorInit (some m) = .ok ⟨some m.toNat, []⟩) := by
  constructor
  · intro h
    simp [contentProcessorInit, dequeNew, h]
  · intro h
    simp [contentProcessorInit, dequeNew, Int.not_lt.mpr h]

/-- C8 witness: capacity `-1` raises, capacity `5` is accepted. -/
theorem capacity_validated_at_construction_witness :
    contentProcessorInit (some (-1)) = .error "maxlen must be non-negative"
    ∧ contentProcessorInit (some 5) = .ok ⟨some 5, []⟩ :=
  ⟨(capacity_validated_at_construction (-1)).1 (by decide),
   (capacity_validated_at_construction 5).2 (by decide)⟩

/-! Error handling in the filter loop (C5). -/

/-- The filter step only appends to the accumulated `included` list;
running it from accumulator `l` equals running it from the empty
accumulator and prepending `l`. -/
theorem filterStep_append (pd : String → Option PyDateTime)
    (lr : Option PyDateTime) (l : List Article) (c : PyDeque) (a : Article) :
    filterStep pd lr ⟨l, c⟩ a
      = ⟨l ++ (filterStep pd lr ⟨[], c⟩ a).included,
         (filterStep pd lr ⟨[], c⟩ a).cache⟩ := by
  by_cases hc : (a.link ≠ "" ∧ dequeContains c a.link)
  · simp [filterStep, hc]
  · cases hb : a.evalRaises
    · cases hi : (shouldIncludeArticle pd lr c a).1 <;>
        simp [filterStep, hc, hb, hi]
    · simp [filterStep, hc, hb]

/-- Accumulator decomposition for the whole loop. -/
theorem foldl_filterStep_append (pd : String → Option PyDateTime)
    (lr : Option PyDateTime) :
    ∀ (xs : List Article) (l : List Article) (c : PyDeque),
      xs.foldl (filterStep pd lr) ⟨l, c⟩
        = ⟨l ++ (xs.foldl (filterStep pd lr) ⟨[], c⟩).included,
           (xs.foldl (filterStep pd lr) ⟨[], c⟩).cache⟩ := by
  intro xs
  induction xs with
  | nil => intro l c; simp
  | cons a rest ih =>
    intro l c
    have heta : filterStep pd lr ⟨[], c⟩ a
        = ⟨(filterStep pd lr ⟨[], c⟩ a).included,
           (filterStep pd lr ⟨[], c⟩ a).cache⟩ := rfl
    rw [List.foldl_cons, List.foldl_cons, filterStep_append pd lr l c a,
      ih (l ++ (filterStep pd lr ⟨[], c⟩ a).included)
        ((filterStep pd lr ⟨[], c⟩ a).cache)]
    conv_rhs => rw [heta,
      ih ((filterStep pd lr ⟨[], c⟩ a).included)
        ((filterStep pd lr ⟨[], c⟩ a).cache)]
    simp [List.append_assoc]

/-- C5: the filter is a total function (it never raises), and an
article whose per-item evaluation throws does not abort the batch: it
is included, its identifier goes through the same include-and-cache
record operation as an unparsable item, and the remaining articles are
processed exactly as they would be from the updated cache. -/
theorem filter_eval_error_includes_and_caches
    (pd : String → Option PyDateTime) (c : PyDeque) (a : Article)
    (rest : List Article) (lr : Option PyDateTime)
    (hr : a.evalRaises = true)
    (hnc : ¬ (a.link ≠ "" ∧ dequeContains c a.link)) :
    (filterArticlesByTimestamp pd c (a :: rest) lr).included
      = a :: (filterArticlesByTimestamp pd (recordUrl c a.link) rest
          lr).included
    ∧ (filterArticlesByTimestamp pd c (a :: rest) lr).cache
      = (filterArticlesByTimestamp pd (recordUrl c a.link) rest lr).cache := by
  have hstep : filterStep pd lr ⟨[], c⟩ a = ⟨[a], recordUrl c a.link⟩ := by
    simp [filterStep, hnc, hr]
  unfold filterArticlesByTimestamp
  rw [List.foldl_cons, hstep,
    foldl_filterStep_append pd lr rest [a] (recordUrl c a.link)]
  simp

/-- Concrete article whose evaluation raises. -/
def artRaisesW : Article := ⟨"rx", "", "S", true⟩

/-- C5 witness: a raising article followed by a normal one: the
raising article is included first, its identifier recorded, and the
tail of the batch is processed from the updated cache. -/
theorem filter_eval_error_includes_and_caches_witness :
    (filterArticlesByTimestamp pdNoDateW ⟨some 5, []⟩ [artRaisesW, artU1W]
        none).included
      = artRaisesW :: (filterArticlesByTimestamp pdNoDateW
          (recordUrl ⟨some 5, []⟩ "rx") [artU1W] none).included
    ∧ (filterArticlesByTimestamp pdNoDateW ⟨some 5, []⟩ [artRaisesW, artU1W]
        none).cache
      = (filterArticlesByTimestamp pdNoDateW (recordUrl ⟨some 5, []⟩ "rx")
          [artU1W] none).cache :=
  filter_eval_error_includes_and_caches pdNoDateW ⟨some 5, []⟩ artRaisesW
    [artU1W] none rfl (by decide)

/-! Dispatcher theorems (C6, C7). -/

theorem foldl_min_le (xs : List Nat) : ∀ (x : Nat),
    xs.foldl Nat.min x ≤ x ∧ ∀ y ∈ xs, xs.foldl Nat.min x ≤ y := by
  induction xs with
  | nil => intro x; simp
  | cons h t ih =>
    intro x
    rw [List.foldl_cons]
    obtain ⟨h1, h2⟩ := ih (Nat.min x h)
    refine ⟨Nat.le_trans h1 (Nat.min_le_left _ _), ?_⟩
    intro y hy
    rcases List.mem_cons.mp hy with rfl | hy2
    · exact Nat.le_trans h1 (Nat.min_le_right _ _)
    · exact h2 y hy2

theorem foldl_min_mem (xs : List Nat) : ∀ (x : Nat),
    xs.foldl Nat.min x ∈ x :: xs := by
  induction xs with
  | nil => intro x; simp
  | cons h t ih =>
    intro x
    rw [List.foldl_cons]
    rcases List.mem_cons.mp (ih (Nat.min x h)) with he | ht
    · rw [he]
      rcases Nat.le_total x h with hle | hle
      · simp [Nat.min_eq_left hle]
      · simp [Nat.min_eq_right hle]
    · simp [ht]

/-- Python's `min` over a non-empty list returns a member that is a
lower bound. -/
theorem pyMin_spec (xs : List Nat) (m : Nat) (hm : pyMin xs = some m) :
    m ∈ xs ∧ ∀ y ∈ xs, m ≤ y := by
  cases xs with
  | nil => simp [pyMin] at hm
  | cons x t =>
    have hmval : t.foldl Nat.min x = m := by
      simpa [pyMin] using hm
    subst hmval
    obtain ⟨h1, h2⟩ := foldl_min_le t x
    refine ⟨foldl_min_mem t x, ?_⟩
    intro y hy
    rcases List.mem_cons.mp hy with rfl | hy2
    · exact h1
    · exact h2 y hy2

/-- The per-iterator loop of `_get_next_run_time` returns, in order,
exactly the next-after-`now` fire time of each schedule. -/
theorem daemonNextTimes_spec :
    ∀ (crons : List PyCroniter) (now : Nat),
      (∀ c ∈ crons, (cronNextAfter c.expr now).isSome) →
      ∃ ts, daemonNextTimes crons now = some ts
        ∧ ts.length = crons.length
        ∧ (∀ t ∈ ts, ∃ c ∈ crons, cronNextAfter c.expr now = some t)
        ∧ (∀ c ∈ crons, ∀ t, cronNextAfter c.expr now = some t → t ∈ ts) := by
  intro crons
  induction crons with
  | nil =>
    intro now _
    exact ⟨[], rfl, rfl, by simp, by simp⟩
  | cons c cs ih =>
    intro now hall
    obtain ⟨t0, ht0⟩ := Option.isSome_iff_exists.mp
      (hall c (List.mem_cons_self c cs))
    obtain ⟨ts, hts, hlen, hmem, hup⟩ := ih now
      (fun c2 hc2 => hall c2 (List.mem_cons_of_mem c hc2))
    refine ⟨t0 :: ts, ?_, by simp [hlen], ?_, ?_⟩
    · simp [daemonNextTimes, croniterGetNext, croniterSetCurrent, ht0, hts]
    · intro t ht
      rcases List.mem_cons.mp ht with rfl | ht2
      · exact ⟨c, List.mem_cons_self c cs, ht0⟩
      · obtain ⟨c2, hc2, hc2t⟩ := hmem t ht2
        exact ⟨c2, List.mem_cons_of_mem c hc2, hc2t⟩
    · intro c2 hc2 t ht
      rcases List.mem_cons.mp hc2 with rfl | hc3
      · have heq : t0 = t := by
          rw [ht0] at ht
          exact Option.some.inj ht
        subst heq
        exact List.mem_cons_self t0 ts
      · exact List.mem_cons_of_mem t0 (hup c2 hc3 t ht)

/-- Re-seating the current instant makes the stored iterator state
irrelevant: the next run time is a function of the expressions and
`now` alone. -/
theorem getNextRunTime_state_independent (crons : List PyCroniter)
    (now t0 : Nat) :
    getNextRunTime (crons.map (fun c => croniterSetCurrent c t0)) now
      = getNextRunTime crons now := by
  have : ∀ (cs : List PyCroniter),
      daemonNextTimes (cs.map (fun c => croniterSetCurrent c t0)) now
        = daemonNextTimes cs now := by
    intro cs
    induction cs with
    | nil => rfl
    | cons c cs2 ih =>
      simp only [List.map_cons, daemonNextTimes]
      rw [ih]
      rfl
  simp [getNextRunTime, this]

/-- Saturday 07:00 on the weekly grid whose minute 0 is a Sunday
00:00 (day 6, hour 7). -/
def satSevenW : Nat := 6 * 1440 + 7 * 60

/-- Saturday 08:00 on the weekly grid. -/
def satEightW : Nat := 6 * 1440 + 8 * 60

/-- The following Sunday 09:00 on the weekly grid. -/
def sunNineW : Nat := 7 * 1440 + 9 * 60

set_option maxRecDepth 100000

/-- C6: for a non-empty schedule set, the dispatcher's next run time
is the minimum over all schedules of that schedule's next fire time
computed from `now` — a member of the per-schedule next times that
lower-bounds all of them — and it is independent of the iterators'
stored state (recomputed from `now`, not from the previous fire).  In
particular, over `["0 8 * * *", "0 9 * * 0"]` at a Saturday 07:00
instant the daemon returns Saturday 08:00, while the Sunday schedule
alone would give Sunday 09:00. -/
theorem next_run_time_min_of_schedules :
    (∀ (crons : List PyCroniter) (now : Nat), crons ≠ [] →
      (∀ c ∈ crons, (cronNextAfter c.expr now).isSome) →
      ∃ T, getNextRunTime crons now = some T
        ∧ (∀ c ∈ crons, ∀ t, cronNextAfter c.expr now = some t → T ≤ t)
        ∧ (∃ c ∈ crons, cronNextAfter c.expr now = some T)
        ∧ (∀ t0, getNextRunTime
            (crons.map (fun c => croniterSetCurrent c t0)) now = some T))
    ∧ ((newsletterDaemonInit ["0 8 * * *", "0 9 * * 0"] 0).map
        (fun dm => getNextRunTime dm.crons satSevenW)) = .ok (some satEightW)
    ∧ ((croniterNew "0 9 * * 0" 0).map
        (fun c => cronNextAfter c.expr satSevenW)) = .ok (some sunNineW)
    ∧ satEightW ≠ sunNineW := by
  refine ⟨?_, by rfl, by rfl, by decide⟩
  intro crons now hne hall
  obtain ⟨ts, hts, hlen, hmem, hup⟩ := daemonNextTimes_spec crons now hall
  obtain ⟨m, hm⟩ : ∃ m, pyMin ts = some m := by
    cases crons with
    | nil => exact absurd rfl hne
    | cons c cs =>
      cases ts with
      | nil => simp at hlen
      | cons a b => exact ⟨_, rfl⟩
  obtain ⟨hmmem, hmle⟩ := pyMin_spec ts m hm
  refine ⟨m, ?_, ?_, hmem m hmmem, ?_⟩
  · simp [getNextRunTime, hts, hm]
  · intro c hc t ht
    exact hmle t (hup c hc t ht)
  · intro t0
    rw [getNextRunTime_state_independent]
    simp [getNextRunTime, hts, hm]

/-- The daily-08:00 iterator used by the dispatcher witness, with an
arbitrary stored current instant. -/
def dailyCronW : PyCroniter := ⟨⟨.num 0, .num 8, .star, .star, .star⟩, 0⟩

/-- C6 witness: a singleton schedule set at Saturday 07:00 has a next
run time that is a member of and lower bound on its per-schedule next
fire times, independently of stored iterator state. -/
theorem next_run_time_min_of_schedules_witness :
    ∃ T, getNextRunTime [dailyCronW] satSevenW = some T
      ∧ (∀ c ∈ [dailyCronW], ∀ t,
          cronNextAfter c.expr satSevenW = some t → T ≤ t)
      ∧ (∃ c ∈ [dailyCronW], cronNextAfter c.expr satSevenW = some T)
      ∧ (∀ t0, getNextRunTime
          ([dailyCronW].map (fun c => croniterSetCurrent c t0)) satSevenW
            = some T) :=
  next_run_time_min_of_schedules.1 [dailyCronW] satSevenW
    (by decide) (by decide)

/-- C7: if any configured frequency fails to parse as a cron
expression, daemon construction fails (and in the `Except` embedding
no partial daemon value exists); in particular construction with
`["not a cron"]` fails. -/
theorem daemon_init_invalid_cron_fails :
    (∀ (freqs : List String) (now : Nat),
      (∃ f ∈ freqs, cronParse f = none) →
      ∃ e, newsletterDaemonInit freqs now = .error e)
    ∧ (∃ e, newsletterDaemonInit ["not a cron"] 0 = .error e) := by
  have hgen : ∀ (freqs : List String) (now : Nat),
      (∃ f ∈ freqs, cronParse f = none) →
      ∃ e, initCrons freqs now = .error e := by
    intro freqs
    induction freqs with
    | nil =>
      intro now h
      simp at h
    | cons f fs ih =>
      intro now h
      have hcons : initCrons (f :: fs) now
          = (croniterNew f now).bind (fun c =>
              (initCrons fs now).bind (fun cs => Except.ok (c :: cs))) := rfl
      by_cases hf : cronParse f = none
      · refine ⟨"invalid cron expression", ?_⟩
        rw [hcons, show croniterNew f now
            = Except.error "invalid cron expression" from by
          simp [croniterNew, hf]]
        rfl
      · obtain ⟨g, hg, hgnone⟩ := h
        rcases List.mem_cons.mp hg with rfl | hg2
        · exact absurd hgnone hf
        · obtain ⟨e, he⟩ := ih now ⟨g, hg2, hgnone⟩
          obtain ⟨ce, hce⟩ : ∃ ce, croniterNew f now = .ok ce := by
            cases hp : cronParse f with
            | none => exact absurd hp hf
            | some e2 => exact ⟨⟨e2, now⟩, by simp [croniterNew, hp]⟩
          refine ⟨e, ?_⟩
          rw [hcons, hce, he]
          rfl
  constructor
  · intro freqs now h
    obtain ⟨e, he⟩ := hgen freqs now h
    refine ⟨e, ?_⟩
    show (initCrons freqs now).map NewsletterDaemon.mk = Except.error e
    rw [he]
    rfl
  · obtain ⟨e, he⟩ := hgen ["not a cron"] 0 ⟨"not a cron", by simp, by rfl⟩
    refine ⟨e, ?_⟩
    show (initCrons ["not a cron"] 0).map NewsletterDaemon.mk = Except.error e
    rw [he]
    rfl

/-- C7 witness: constructing the daemon over the concrete frequency
list `["not a cron"]` fails before any scheduling state exists. -/
theorem daemon_init_invalid_cron_fails_witness :
    ∃ e, newsletterDaemonInit ["not a cron"] 0 = .error e :=
  daemon_init_invalid_cron_fails.1 ["not a cron"] 0
    ⟨"not a cron", by simp, by rfl⟩

/-! Per-source collection (C10). -/

/-- Slicing with a non-negative bound is a take. -/
theorem pySlice_nonneg {maxA : Int} (h : 0 ≤ maxA) (l : List Article) :
    pySlice maxA l = l.take maxA.toNat := by
  simp [pySlice, h]

/-- Inversion of the entry a source contributes. -/
theorem entryFor_some (process : String → Except Unit (List Article))
    (maxA : Int) (s : String) (e : SourceEntry)
    (he : entryFor process maxA s = some e) :
    ∃ l, process s = .ok l ∧ l ≠ [] ∧ e.url = s
      ∧ e.articles = pySlice maxA l := by
  unfold entryFor at he
  split at he
  · simp at he
  · rename_i l hp
    by_cases hl : l.isEmpty
    · rw [if_pos hl] at he; simp at he
    · rw [if_neg hl] at he
      split at he
      · simp at he
      · rename_i a0 hh
        have hee : (⟨a0.source, s, pySlice maxA l⟩ : SourceEntry) = e :=
          Option.some.inj he
        subst hee
        exact ⟨l, hp, by simpa [List.isEmpty_iff] using hl, rfl, rfl⟩

/-- Membership in the dict after an assignment. -/
theorem mem_dictInsert (m : List SourceEntry) (e2 e : SourceEntry)
    (he : e ∈ dictInsert m e2) : e ∈ m ∨ e = e2 := by
  unfold dictInsert at he
  by_cases hany : m.any (fun x => x.name == e2.name)
  · rw [if_pos hany] at he
    obtain ⟨x, hx, hxe⟩ := List.mem_map.mp he
    by_cases hn : x.name == e2.name
    · right; rw [if_pos hn] at hxe; exact hxe.symm
    · left; rw [if_neg hn] at hxe; exact hxe ▸ hx
  · rw [if_neg hany] at he
    rcases List.mem_append.mp he with h | h
    · exact Or.inl h
    · exact Or.inr (by simpa using h)

/-- An assignment puts its own entry in the dict. -/
theorem mem_dictInsert_self (m : List SourceEntry) (e : SourceEntry) :
    e ∈ dictInsert m e := by
  unfold dictInsert
  by_cases hany : m.any (fun x => x.name == e.name)
  · rw [if_pos hany]
    obtain ⟨x, hx, hxn⟩ := List.any_eq_true.mp hany
    exact List.mem_map.mpr ⟨x, hx, by rw [if_pos hxn]⟩
  · rw [if_neg hany]
    exact List.mem_append.mpr (Or.inr (List.mem_singleton.mpr rfl))

/-- An assignment with the same entry, or with a different key, keeps
an existing entry in the dict. -/
theorem mem_dictInsert_of_mem (m : List SourceEntry) (e2 e : SourceEntry)
    (he : e ∈ m) (hcond : e2 = e ∨ e2.name ≠ e.name) :
    e ∈ dictInsert m e2 := by
  unfold dictInsert
  by_cases hany : m.any (fun x => x.name == e2.name)
  · rw [if_pos hany]
    refine List.mem_map.mpr ⟨e, he, ?_⟩
    rcases hcond with heq | hne
    · by_cases hn : (e.name == e2.name)
      · rw [if_pos hn, heq]
      · rw [if_neg hn]
    · have hfalse : ¬ ((e.name == e2.name) = true) := by
        simp only [beq_iff_eq]
        exact fun h => hne h.symm
      rw [if_neg hfalse]
  · rw [if_neg hany]
    exact List.mem_append.mpr (Or.inl he)

/-- Every entry of the final dict was contributed by some source. -/
theorem collect_mem_sound (process : String → Except Unit (List Article))
    (maxA : Int) :
    ∀ (sources : List String) (m : List SourceEntry) (e : SourceEntry),
      e ∈ sources.foldl (collectStep process maxA) m →
      e ∈ m ∨ ∃ s ∈ sources, entryFor process maxA s = some e := by
  intro sources
  induction sources with
  | nil => intro m e he; exact Or.inl he
  | cons s ss ih =>
    intro m e he
    rw [List.foldl_cons] at he
    rcases ih (collectStep process maxA m s) e he with hm | ⟨s2, hs2, hes2⟩
    · unfold collectStep at hm
      cases hef : entryFor process maxA s with
      | none => rw [hef] at hm; exact Or.inl hm
      | some es =>
        rw [hef] at hm
        rcases mem_dictInsert m es e hm with h | rfl
        · exact Or.inl h
        · exact Or.inr ⟨s, List.mem_cons_self s ss, hef⟩
    · exact Or.inr ⟨s2, List.mem_cons_of_mem s hs2, hes2⟩

/-- An entry stays in the dict across further sources as long as no
later source contributes a different entry under the same key. -/
theorem collect_mem_preserved (process : String → Except Unit (List Article))
    (maxA : Int) :
    ∀ (sources : List String) (m : List SourceEntry) (e : SourceEntry),
      e ∈ m →
      (∀ s2 ∈ sources, ∀ e2, entryFor process maxA s2 = some e2 →
        e2.name = e.name → e2 = e) →
      e ∈ sources.foldl (collectStep process maxA) m := by
  intro sources
  induction sources with
  | nil => intro m e he _; exact he
  | cons s ss ih =>
    intro m e he hdist
    rw [List.foldl_cons]
    refine ih (collectStep process maxA m s) e ?_
      (fun s2 hs2 => hdist s2 (List.mem_cons_of_mem s hs2))
    unfold collectStep
    cases hef : entryFor process maxA s with
    | none => exact he
    | some es =>
      refine mem_dictInsert_of_mem m es e he ?_
      by_cases hn : es.name = e.name
      · exact Or.inl (hdist s (List.mem_cons_self s ss) es hef hn)
      · exact Or.inr hn

/-- A contributing source's entry reaches the final dict when no other
source shares its key. -/
theorem collect_mem_of_entryFor (process : String → Except Unit (List Article))
    (maxA : Int) :
    ∀ (sources : List String) (m : List SourceEntry) (s : String)
      (es : SourceEntry), s ∈ sources →
      entryFor process maxA s = some es →
      (∀ s2 ∈ sources, ∀ e2, entryFor process maxA s2 = some e2 →
        e2.name = es.name → e2 = es) →
      es ∈ sources.foldl (collectStep process maxA) m := by
  intro sources
  induction sources with
  | nil => intro m s es hs; exact absurd hs (List.not_mem_nil s)
  | cons s1 ss ih =>
    intro m s es hs hes hdist
    rw [List.foldl_cons]
    rcases List.mem_cons.mp hs with rfl | hs2
    · refine collect_mem_preserved process maxA ss _ es ?_
        (fun s2 h2 => hdist s2 (List.mem_cons_of_mem s h2))
      unfold collectStep
      rw [hes]
      exact mem_dictInsert_self m es
    · exact ih _ s es hs2 hes
        (fun s2 h2 => hdist s2 (List.mem_cons_of_mem s1 h2))

/-- C10 (amended): with a non-negative per-source cap, every delivered
entry is the order-preserving prefix `articles[:max_articles_per_source]`
of its own source's successful non-empty filter output, so the
per-source count never exceeds the cap; a source whose filter output
is empty (or whose processing raises) contributes no entry; and the
entry of a source with a non-empty output reaches the delivered dict
provided no other source contributes a different entry under the same
source label (a later same-label source overwrites the earlier entry). -/
theorem collect_limited_prefix_per_source
    (process : String → Except Unit (List Article)) (maxA : Int)
    (sources : List String) (hmax : 0 ≤ maxA) :
    (∀ e ∈ collectArticlesFromSources process maxA sources,
      ∃ s ∈ sources, ∃ l, process s = .ok l ∧ l ≠ []
        ∧ e.url = s ∧ e.articles = l.take maxA.toNat
        ∧ e.articles.length ≤ maxA.toNat)
    ∧ (∀ s, process s = .ok [] →
        ∀ e ∈ collectArticlesFromSources process maxA sources, e.url ≠ s)
    ∧ (∀ s ∈ sources, ∀ es, entryFor process maxA s = some es →
        (∀ s2 ∈ sources, ∀ e2, entryFor process maxA s2 = some e2 →
          e2.name = es.name → e2 = es) →
        es ∈ collectArticlesFromSources process maxA sources) := by
  have hsound : ∀ e ∈ collectArticlesFromSources process maxA sources,
      ∃ s ∈ sources, ∃ l, process s = .ok l ∧ l ≠ []
        ∧ e.url = s ∧ e.articles = l.take maxA.toNat
        ∧ e.articles.length ≤ maxA.toNat := by
    intro e he
    rcases collect_mem_sound process maxA sources [] e he with hm | ⟨s, hs, hes⟩
    · exact absurd hm (List.not_mem_nil e)
    · obtain ⟨l, hl, hlne, hurl, harts⟩ := entryFor_some process maxA s e hes
      rw [pySlice_nonneg hmax] at harts
      exact ⟨s, hs, l, hl, hlne, hurl, harts,
        harts ▸ List.length_take_le _ _⟩
  refine ⟨hsound, ?_, ?_⟩
  · intro s hsl e he heq
    obtain ⟨s2, _, l, hl, hlne, hurl, _, _⟩ := hsound e he
    rw [heq] at hurl
    subst hurl
    rw [hsl] at hl
    exact hlne (Except.ok.inj hl).symm
  · intro s hs es hes hdist
    exact collect_mem_of_entryFor process maxA sources [] s es hs hes hdist

/-- Articles for the C10 counterexample: two different sources whose
items carry the same source label `"S"`. -/
def artA10 : Article := ⟨"http://a/1", "", "S", false⟩

/-- Second colliding article. -/
def artB10 : Article := ⟨"http://b/1", "", "S", false⟩

/-- Concrete processing oracle for the C10 counterexample. -/
def procC10 : String → Except Unit (List Article) := fun s =>
  if s = "http://a" then .ok [artA10]
  else if s = "http://b" then .ok [artB10]
  else .error ()

/-- C10 counterexample: source `http://a` succeeds with a non-empty
filter output, yet the delivered dict carries no entry for it — the
later source `http://b` shares the label `"S"` and its assignment
overwrites the earlier entry, so `http://a`'s articles are not handed
to rendering, contrary to the claim's universal statement. -/
theorem collect_label_collision_cex :
    procC10 "http://a" = .ok [artA10]
    ∧ collectArticlesFromSources procC10 3 ["http://a", "http://b"]
        = [⟨"S", "http://b", [artB10]⟩] :=
  ⟨rfl, rfl⟩

/-- Entry delivered for the C10 witness ' single-source run. -/
def entryA10 : SourceEntry := ⟨"S", "http://a", [artA10]⟩

/-- C10 witness: with the single source `http://a` and cap 3, the
delivered entry is exactly the (unsliced, length-1) filter output, and
it is present in the dict. -/
theorem collect_limited_prefix_per_source_witness :
    (∀ e ∈ collectArticlesFromSources procC10 3 ["http://a"],
      ∃ s ∈ ["http://a"], ∃ l, procC10 s = .ok l ∧ l ≠ []
        ∧ e.url = s ∧ e.articles = l.take (3 : Int).toNat
        ∧ e.articles.length ≤ (3 : Int).toNat)
    ∧ entryA10 ∈ collectArticlesFromSources procC10 3 ["http://a"] :=
  ⟨(collect_limited_prefix_per_source procC10 3 ["http://a"] (by decide)).1,
   (collect_limited_prefix_per_source procC10 3 ["http://a"] (by decide)).2.2
     "http://a" (by decide) entryA10 rfl
     (by
       intro s2 hs2 e2 he2 _
       have hs2e : s2 = "http://a" := by simpa using hs2
       subst hs2e
       have : some entryA10 = some e2 := by rw [← he2]; rfl
       exact (Option.some.inj this).symm)⟩

end Yomu
